import Mathlib

/-!
Verification development for the lightmetrica-v3 instanced scene graph
specification.  The Python sources under test are the functional test
notebook (sphere mesh generation, scene construction calls) and the
jupyter progress/logger bindings; the engine core (scene graph,
flattener, acceleration builder) is consumed through its scripting
interface, so those parts are modelled from the specification text.
-/

set_option maxRecDepth 8000

namespace Lm

/-! ### Sphere mesh generation (src/functest/func_render_instancing.py)

Direct translation of the face-index fill loop of the sphere mesh:
for i in range(1, numTheta+1), j in range(1, numPhi+1) the loop computes
p00, p01, p10, p11 and appends the face (p10,p01,p00) when i > 1 and the
face (p11,p01,p10) when i < numTheta.
-/

def numTheta : Nat := 10

def numPhi : Nat := 2 * numTheta

/-- Row count of the vs/ns/ts arrays: numPhi*(numTheta+1). -/
def numVerts : Nat := numPhi * (numTheta + 1)

/-- The list of triangular faces, in fill order of the Python loop. -/
def sphereFaces : List (Nat × Nat × Nat) :=
  (List.range numTheta).foldr (fun i0 acc =>
    (List.range numPhi).foldr (fun j0 acc2 =>
      let i := i0 + 1
      let j := j0 + 1
      let p00 := (i - 1) * numPhi + (j - 1)
      let p01 := (i - 1) * numPhi + j % numPhi
      let p10 := i * numPhi + (j - 1)
      let p11 := i * numPhi + j % numPhi
      ((if 1 < i then [(p10, p01, p00)] else []) ++
       (if i < numTheta then [(p11, p01, p10)] else [])) ++ acc2) acc) []

/-! ### JupyterProgress (src/lightmetrica_jupyter/init, lines 90-107)

The tqdm progress bar state is its current count n and its total.
tqdm.update(d) adds d to the count.  JupyterProgress.update(processed)
calls pbar.update(max(0, processed - pbar.n)); updateTime does the same
with the elapsed time; end() calls pbar.update(max(0, total - pbar.n))
and closes the bar.
-/

structure Pbar where
  n : Int
  total : Int
deriving DecidableEq

def tqdmUpdate (p : Pbar) (d : Int) : Pbar := ⟨p.n + d, p.total⟩

/-- start(mode, total, totalTime): tqdm_notebook(total=total) starts at n = 0. -/
def progressStart (total : Int) : Pbar := ⟨0, total⟩

/-- update(processed): the delta handed to tqdm, and the resulting bar. -/
def progressUpdate (p : Pbar) (processed : Int) : Int × Pbar :=
  (max 0 (processed - p.n), tqdmUpdate p (max 0 (processed - p.n)))

/-- updateTime(elapsed): the delta handed to tqdm, and the resulting bar. -/
def progressUpdateTime (p : Pbar) (elapsed : Int) : Int × Pbar :=
  (max 0 (elapsed - p.n), tqdmUpdate p (max 0 (elapsed - p.n)))

/-- end(): the delta handed to tqdm, and the resulting bar before close. -/
def progressEnd (p : Pbar) : Int × Pbar :=
  (max 0 (p.total - p.n), tqdmUpdate p (max 0 (p.total - p.n)))

/-! ### Scene graph data model

Modelled from the spec: the engine core (SceneNode graph, SceneFlattener,
AccelerationBuilder, AssetTable) is driven by the notebook only through
its scripting interface, so the graph of section 3 and the operations of
section 4 are embedded here faithfully from the specification text.
A SceneNode is a variant over Primitive / Transform / InstanceGroup /
Root; Transform holds one 4x4 matrix and at most one child reference;
groups and the root hold an ordered sequence of child references.
Matrices are 4x4 rational matrices; nodes are stored in an arena
(indexed table) and child references are indices, per section 9 of the
spec. -/

abbrev Mat4 := Matrix (Fin 4) (Fin 4) ℚ

inductive Node where
  | prim (mesh material : Nat)
  | xform (M : Mat4) (child : Option Nat)
  | group (children : List Nat)
  | root (children : List Nat)

structure Graph where
  nodes : List Node
  rootId : Nat

/-- Outgoing child references of one node. -/
def childIds : Node → List Nat
  | .prim _ _ => []
  | .xform _ c => c.toList
  | .group cs => cs
  | .root cs => cs

/-- Outgoing child references of the node stored at index n. -/
def childIdsAt (g : Graph) (n : Nat) : List Nat :=
  match g.nodes[n]? with
  | some nd => childIds nd
  | none => []

/-- One parent-to-child edge of the graph. -/
def stepRel (g : Graph) (a b : Nat) : Prop := b ∈ childIdsAt g a

instance stepRelDecidable (g : Graph) (a b : Nat) : Decidable (stepRel g a b) :=
  inferInstanceAs (Decidable (b ∈ childIdsAt g a))

/-- b is reachable from a by following one or more child references. -/
def Reaches (g : Graph) : Nat → Nat → Prop := Relation.TransGen (stepRel g)

/-- Section 3 invariant: no node reachable from itself. -/
def Acyclic (g : Graph) : Prop := ∀ n, ¬ Reaches g n n

/-- Some node on a cycle is reachable from the root (the malformed case). -/
def CyclicFromRoot (g : Graph) : Prop :=
  ∃ n, (n = g.rootId ∨ Reaches g g.rootId n) ∧ Reaches g n n

/-- Every child reference points into the arena and the root id is valid. -/
def wellFormed (g : Graph) : Bool :=
  decide (g.rootId < g.nodes.length) &&
    g.nodes.all (fun nd => (childIds nd).all (fun c => decide (c < g.nodes.length)))

/-! ### addChild (spec section 4.2)

Modelled from the spec: addChild(parentId, childId) fails with
InvalidTopologyError if the parent is a Primitive, or if adding the
child would close a cycle (the new edge parent -> child closes a cycle
exactly when the parent is already reachable from the child, or child =
parent); a Transform that already has a child fails with CapacityError;
otherwise the child is attached.  The checks are performed in the order
the spec lists them. -/

inductive GErr where
  | invalidTopology
  | capacity
  | notFound
deriving DecidableEq

/-- Bounded reachability search used by the construction-time DAG check. -/
def reachB (g : Graph) : Nat → Nat → Nat → Bool
  | 0, _, _ => false
  | fuel + 1, a, b => (childIdsAt g a).any (fun c => c == b || reachB g fuel c b)

/-- Would the new edge parent -> child close a cycle? -/
def closesCycle (g : Graph) (parent child : Nat) : Bool :=
  child == parent || reachB g g.nodes.length child parent

def setNode (g : Graph) (n : Nat) (nd : Node) : Graph :=
  ⟨g.nodes.set n nd, g.rootId⟩

def addChild (g : Graph) (parent child : Nat) : Except GErr Graph :=
  match g.nodes[parent]? with
  | none => .error .notFound
  | some nd =>
    match g.nodes[child]? with
    | none => .error .notFound
    | some _ =>
      match nd with
      | .prim _ _ => .error .invalidTopology
      | .xform M c =>
        if closesCycle g parent child then .error .invalidTopology
        else
          match c with
          | some _ => .error .capacity
          | none => .ok (setNode g parent (.xform M (some child)))
      | .group cs =>
        if closesCycle g parent child then .error .invalidTopology
        else .ok (setNode g parent (.group (cs ++ [child])))
      | .root cs =>
        if closesCycle g parent child then .error .invalidTopology
        else .ok (setNode g parent (.root (cs ++ [child])))

/-- The error reported by an addChild call, if any. -/
def errOf : Except GErr Graph → Option GErr
  | .error e => some e
  | .ok _ => none

def isPrimAt (g : Graph) (n : Nat) : Bool :=
  match g.nodes[n]? with
  | some (.prim _ _) => true
  | _ => false

/-- Is the node at n a Transform that already has its one child? -/
def isFullXformAt (g : Graph) (n : Nat) : Bool :=
  match g.nodes[n]? with
  | some (.xform _ (some _)) => true
  | _ => false

/-- Concrete graph for the C6 counterexample: the root references group 1,
group 1 references transform 2, transform 2 already has child primitive
3.  Adding group 1 under transform 2 both exceeds the Transform capacity
and closes a cycle. -/
def gOverlap : Graph :=
  ⟨[.root [1], .group [2], .xform 1 (some 3), .prim 0 0], 0⟩

/-- Concrete graph for the C6 witness: a root, an empty group, a primitive. -/
def gAttach : Graph := ⟨[.root [], .group [], .prim 0 0], 0⟩

/-! ### Construction-time state and operations (spec sections 4.1, 4.2, 7)

Modelled from the spec: the AssetTable stores named typed resources
(names and type tags abstracted to ids, parameters to integer lists);
create fails with DuplicateNameError on an existing name and with
InvalidParamsError when the parameters do not satisfy the schema of the
type (the schema itself is an external black box, so it is a parameter
here); lookup fails with NotFoundError.  Node creation appends to the
arena; addChild is as above.  Every operation reports its error
synchronously and returns the resulting state. -/

inductive CErr where
  | duplicateName
  | invalidParams
  | notFound
  | invalidTopology
  | capacity
  | staleHandle
deriving DecidableEq

structure SState where
  table : List (Nat × Nat × List Int)
  graph : Graph
  gen : Nat

inductive Op where
  | createAsset (name ty : Nat) (params : List Int)
  | lookupAsset (name : Nat)
  | primitiveNode (mesh material : Nat)
  | transformNode (M : Mat4)
  | instanceGroupNode
  | addChildOp (p c : Nat)

def hasName (t : List (Nat × Nat × List Int)) (name : Nat) : Bool :=
  t.any (fun e => e.1 == name)

def graphErrToCErr : GErr → CErr
  | .invalidTopology => .invalidTopology
  | .capacity => .capacity
  | .notFound => .notFound

/-- One construction-time operation: reported error (if any) and the
state after the call. -/
def applyOp (schema : Nat → List Int → Bool) (s : SState) : Op → Option CErr × SState
  | .createAsset name ty params =>
    if hasName s.table name then (some .duplicateName, s)
    else if schema ty params then
      (none, { s with table := s.table ++ [(name, ty, params)] })
    else (some .invalidParams, s)
  | .lookupAsset name =>
    if hasName s.table name then (none, s) else (some .notFound, s)
  | .primitiveNode me ma =>
    (none, { s with graph := ⟨s.graph.nodes ++ [.prim me ma], s.graph.rootId⟩ })
  | .transformNode M =>
    (none, { s with graph := ⟨s.graph.nodes ++ [.xform M none], s.graph.rootId⟩ })
  | .instanceGroupNode =>
    (none, { s with graph := ⟨s.graph.nodes ++ [.group []], s.graph.rootId⟩ })
  | .addChildOp p c =>
    match addChild s.graph p c with
    | .ok g2 => (none, { s with graph := g2 })
    | .error e => (some (graphErrToCErr e), s)

/-- Schema accepting everything (a concrete instance for witnesses). -/
def schemaAll : Nat → List Int → Bool := fun _ _ => true

/-- A state already holding asset name 0, for the C7 witness. -/
def sDup : SState := ⟨[(0, 0, [])], ⟨[.root []], 0⟩, 0⟩

/-! ### Reset semantics and stale handles (spec section 4.2)

Modelled from the spec: resetting the scene discards the whole graph and
asset-table generation; the root singleton is recreated; handles carry
the generation they were obtained in, and using a handle from an earlier
generation fails with StaleHandleError. -/

structure AHandle where
  gen : Nat
  idx : Nat

structure NHandle where
  gen : Nat
  idx : Nat

/-- The graph right after reset: only the root singleton. -/
def freshGraph : Graph := ⟨[.root []], 0⟩

def resetScene (s : SState) : SState := ⟨[], freshGraph, s.gen + 1⟩

def useAsset (s : SState) (h : AHandle) : Except CErr (Nat × Nat × List Int) :=
  if h.gen = s.gen then
    match s.table[h.idx]? with
    | some a => .ok a
    | none => .error .notFound
  else .error .staleHandle

def useNode (s : SState) (h : NHandle) : Except CErr Node :=
  if h.gen = s.gen then
    match s.graph.nodes[h.idx]? with
    | some nd => .ok nd
    | none => .error .notFound
  else .error .staleHandle

/-- A pre-reset state for the C8 witness. -/
def sPre : SState := ⟨[(0, 0, [])], freshGraph, 3⟩

/-! ### Normal transformation (spec sections 4.3, 4.4, 8)

Modelled from the spec: normals transform by the inverse-transpose of
the accumulated linear 3x3 part of the transform, not by the transform
itself, and are re-normalized after.  Stated over the real numbers (the
engine math library is an external black box with this contract). -/

abbrev V3 := Fin 3 → ℝ

abbrev Mat3 := Matrix (Fin 3) (Fin 3) ℝ

/-- Euclidean inner product on 3-vectors. -/
def dot3 (v w : V3) : ℝ := ∑ i, v i * w i

/-- Re-normalization of a vector to unit length. -/
noncomputable def normalize3 (v : V3) : V3 :=
  fun i => (Real.sqrt (dot3 v v))⁻¹ * v i

/-- The matrix a normal is transformed by: the inverse-transpose of the
linear part. -/
noncomputable def normalMatrix (M : Mat3) : Mat3 := M⁻¹.transpose

/-- The flattener/intersector transforms a hit normal by the
inverse-transpose of the accumulated 3x3 linear part and re-normalizes. -/
noncomputable def transformedNormal (M : Mat3) (n : V3) : V3 :=
  normalize3 ((normalMatrix M).mulVec n)

/-- A unit normal along the x axis, for the C4 witness. -/
def unitX : V3 := fun i => if i = 0 then 1 else 0

/-- A non-uniform scale (1, 2, 2), for the C4 witness. -/
noncomputable def scaleM : Mat3 :=
  Matrix.diagonal (fun i => if i = 0 then 1 else 2)

/-! ### SceneFlattener (spec section 4.3)

Modelled from the spec: depth-first traversal from the root with the
identity transform; entering a Transform multiplies the accumulated
transform on the right by the node matrix (column-vector convention:
world_point = accumulated_transform * local_point); a Primitive emits a
FlattenedInstance carrying the accumulated transform; group and root
children are traversed in order.  Cycle detection is at traversal time:
a node already on the active ancestor stack, or exhaustion of the
DAG-depth guard, aborts with CycleError; a dangling node reference
aborts with NotFoundError.  Each emitted instance also records its
root-to-leaf path as the list of child indices taken, which identifies
the reference site. -/

inductive FErr where
  | cycleError
  | notFoundError
deriving DecidableEq

/-- FlattenedInstance: mesh and material handles, the composed world
transform, and the root-to-leaf path (child indices) that produced it. -/
structure Inst where
  path : List Nat
  mesh : Nat
  material : Nat
  world : Mat4

/-- Sequence the flattening of an indexed child list, concatenating the
emitted instances and propagating the first error. -/
def kidsGo (f : Nat → Nat → Except FErr (List Inst)) :
    List Nat → Nat → Except FErr (List Inst)
  | [], _ => .ok []
  | c :: rest, i =>
    match f c i with
    | .error e => .error e
    | .ok l =>
      match kidsGo f rest (i + 1) with
      | .error e => .error e
      | .ok r => .ok (l ++ r)

/-- Naive-expansion flattening (spec 4.3a): recurse into every child of
a group with the current accumulated transform, as if the children were
inlined at every reference site.  fuel is the DAG-depth guard; stack is
the active ancestor chain; rpath the reversed path of child indices. -/
def flattenAux (g : Graph) : Nat → Nat → List Nat → List Nat → Mat4 →
    Except FErr (List Inst)
  | 0, _, _, _, _ => .error .cycleError
  | fuel + 1, n, stack, rpath, T =>
    if n ∈ stack then .error .cycleError
    else
      match g.nodes[n]? with
      | none => .error .notFoundError
      | some (.prim me ma) => .ok [⟨rpath.reverse, me, ma, T⟩]
      | some (.xform _ none) => .ok []
      | some (.xform M (some c)) =>
        flattenAux g fuel c (n :: stack) (0 :: rpath) (T * M)
      | some (.group cs) =>
        kidsGo (fun c i => flattenAux g fuel c (n :: stack) (i :: rpath) T) cs 0
      | some (.root cs) =>
        kidsGo (fun c i => flattenAux g fuel c (n :: stack) (i :: rpath) T) cs 0

/-- Instance a bottom-level entry at a reference site: compose the
accumulated transform of the site with the world transform the entry
has inside the shared bottom-level structure. -/
def instApply (T : Mat4) (e : Inst) : Inst := ⟨e.path, e.mesh, e.material, T * e.world⟩

/-- True-instancing flattening (spec 4.3b): the content of an
InstanceGroup is flattened with the group treated as its own root under
the identity transform (the shared bottom-level structure, built once
and memoized per group identity - memoization affects cost only, not
the produced set of instances), and each reference site contributes a
top-level instance entry that composes its accumulated transform with
that shared content.  Nested groups recurse the same way. -/
def flattenIAux (g : Graph) : Nat → Nat → List Nat → List Nat → Mat4 →
    Except FErr (List Inst)
  | 0, _, _, _, _ => .error .cycleError
  | fuel + 1, n, stack, rpath, T =>
    if n ∈ stack then .error .cycleError
    else
      match g.nodes[n]? with
      | none => .error .notFoundError
      | some (.prim me ma) => .ok [⟨rpath.reverse, me, ma, T⟩]
      | some (.xform _ none) => .ok []
      | some (.xform M (some c)) =>
        flattenIAux g fuel c (n :: stack) (0 :: rpath) (T * M)
      | some (.group cs) =>
        match kidsGo (fun c i => flattenIAux g fuel c (n :: stack) (i :: rpath) 1) cs 0 with
        | .error e => .error e
        | .ok content => .ok (content.map (instApply T))
      | some (.root cs) =>
        kidsGo (fun c i => flattenIAux g fuel c (n :: stack) (i :: rpath) T) cs 0

/-- Flatten a scene by naive expansion, from the root with the identity
transform and the depth guard set above any acyclic depth. -/
def flattenScene (g : Graph) : Except FErr (List Inst) :=
  flattenAux g (g.nodes.length + 1) g.rootId [] [] 1

/-- Flatten a scene by true instancing. -/
def flattenSceneInst (g : Graph) : Except FErr (List Inst) :=
  flattenIAux g (g.nodes.length + 1) g.rootId [] [] 1

/-- Resolve a root-to-leaf path (list of child indices) independently of
the flattener: follow the indices from the given node and return the
mesh handle, material handle, and the top-down left-to-right product of
every transform matrix on the path. -/
def resolvePath (g : Graph) : Nat → List Nat → Option (Nat × Nat × Mat4)
  | n, [] =>
    match g.nodes[n]? with
    | some (.prim me ma) => some (me, ma, 1)
    | _ => none
  | n, i :: p =>
    match g.nodes[n]? with
    | some (.xform M (some c)) =>
      if i = 0 then (resolvePath g c p).map (fun r => (r.1, r.2.1, M * r.2.2)) else none
    | some (.group cs) =>
      match cs[i]? with
      | some c => resolvePath g c p
      | none => none
    | some (.root cs) =>
      match cs[i]? with
      | some c => resolvePath g c p
      | none => none
    | _ => none

/-- Acyclic witness scene: root 0 -> transform 1 -> group 2 -> prim 3,
with a rank function certifying acyclicity. -/
def gChain : Graph := ⟨[.root [1], .xform 1 (some 2), .group [3], .prim 0 0], 0⟩

/-- Rank function for gChain: strictly decreasing along every edge. -/
def gChainRank : Nat → Nat
  | 0 => 3
  | 1 => 2
  | 2 => 1
  | _ => 0

/-- Cyclic witness scene: root 0 -> transform 1 -> group 2 -> transform 1. -/
def gCycle : Graph := ⟨[.root [1], .xform 1 (some 2), .group [1]], 0⟩

/-- Minimal scene for the C3 witness: root 0 -> prim 1. -/
def gLeaf : Graph := ⟨[.root [1], .prim 0 0], 0⟩

end Lm

namespace Lm

/-- Claim C9: every face index produced by the sphere-mesh fill loop lies
within bounds of the vertex/normal/texcoord arrays (strictly below
numPhi*(numTheta+1) = 220 rows), and the loop writes exactly
2*numPhi*(numTheta-1) = 360 faces, so the preallocated face array is
filled completely. -/
theorem c9_sphere_mesh_faces :
    sphereFaces.length = 2 * numPhi * (numTheta - 1) ∧
    (sphereFaces.all fun f =>
      decide (f.1 < numVerts) && decide (f.2.1 < numVerts) &&
      decide (f.2.2 < numVerts)) = true := by
  decide

/-- Claim C10, as stated, is false at a concrete input: after
start(total=10) and update(processed=15) the bar count is 15; end() then
passes max(0, 10 - 15) = 0 to tqdm and the count stays 15, not the
total 10.  So end() does not always raise the count exactly to the
total. -/
theorem c10_progress_end_not_exact :
    (progressEnd (progressUpdate (progressStart 10) 15).2).2.n ≠
      (progressStart 10).total := by
  decide

/-- Claim C10 (amended): every delta passed to the underlying tqdm bar by
update/updateTime/end is non-negative (negative deltas are clamped to
zero), so the displayed count is monotonically non-decreasing; and end()
raises the count exactly to the total whenever the count has not already
exceeded the total. -/
theorem c10_progress_monotone :
    (∀ p x, 0 ≤ (progressUpdate p x).1 ∧ p.n ≤ (progressUpdate p x).2.n) ∧
    (∀ p x, 0 ≤ (progressUpdateTime p x).1 ∧ p.n ≤ (progressUpdateTime p x).2.n) ∧
    (∀ p, 0 ≤ (progressEnd p).1 ∧ p.n ≤ (progressEnd p).2.n) ∧
    (∀ p, p.n ≤ p.total → (progressEnd p).2.n = p.total) := by
  refine ⟨fun p x => ⟨?_, ?_⟩, fun p x => ⟨?_, ?_⟩, fun p => ⟨?_, ?_⟩, fun p h => ?_⟩ <;>
    simp only [progressUpdate, progressUpdateTime, progressEnd, tqdmUpdate] <;> omega

/-- Witness for C10 (amended) at a concrete run: start(10), update(4);
the hypothesis of the end() clause holds since the count 0 has not
exceeded the total 10. -/
theorem c10_progress_monotone_witness :
    ((0 : Int) ≤ (progressUpdate (progressStart 10) 4).1) ∧
    (progressStart 10).n ≤ (progressStart 10).total ∧
    (progressEnd (progressStart 10)).2.n = (progressStart 10).total :=
  ⟨(c10_progress_monotone.1 _ _).1, by decide,
    c10_progress_monotone.2.2.2 _ (by decide)⟩

/-- Claim C6, as stated, is false on the model at a concrete input: in
gOverlap the parent node 2 is a Transform that already has its one
child, so the claim requires CapacityError; but adding group 1 under it
also closes a cycle, and the cycle check of section 4.2 precedes the
capacity check, so the call reports InvalidTopologyError instead. -/
theorem c6_capacity_counterexample :
    ¬ ((errOf (addChild gOverlap 2 1) = some GErr.capacity) ↔
        isFullXformAt gOverlap 2 = true) := by
  decide

/-- Claim C6 (amended): for valid parent and child ids, addChild fails
with InvalidTopologyError exactly when the parent is a Primitive or the
new edge would close a cycle; it fails with CapacityError exactly when
the parent is a Transform that already has its one child and the edge
would not also close a cycle (the cycle check takes precedence);
otherwise it succeeds and attaches the child. -/
theorem c6_addChild_errors (g : Graph) (p c : Nat)
    (hp : (g.nodes[p]?).isSome = true) (hc : (g.nodes[c]?).isSome = true) :
    (errOf (addChild g p c) = some GErr.invalidTopology ↔
      (isPrimAt g p = true ∨ closesCycle g p c = true)) ∧
    (errOf (addChild g p c) = some GErr.capacity ↔
      (isFullXformAt g p = true ∧ closesCycle g p c = false)) ∧
    (isPrimAt g p = false → closesCycle g p c = false → isFullXformAt g p = false →
      ∃ g2, addChild g p c = .ok g2 ∧ c ∈ childIdsAt g2 p) := by
  obtain ⟨nd, hnd⟩ := Option.isSome_iff_exists.mp hp
  obtain ⟨nc, hnc⟩ := Option.isSome_iff_exists.mp hc
  have hplen : p < g.nodes.length := (List.getElem?_eq_some.mp hnd).1
  cases nd with
  | prim me ma =>
    simp [addChild, hnd, hnc, errOf, isPrimAt, isFullXformAt]
  | xform M ch =>
    cases hcy : closesCycle g p c with
    | true =>
      simp [addChild, hnd, hnc, hcy, errOf, isPrimAt, isFullXformAt]
    | false =>
      cases ch with
      | some x =>
        simp [addChild, hnd, hnc, hcy, errOf, isPrimAt, isFullXformAt]
      | none =>
        refine ⟨?_, ?_, fun _ _ _ => ?_⟩
        · simp [addChild, hnd, hnc, hcy, errOf, isPrimAt, isFullXformAt]
        · simp [addChild, hnd, hnc, hcy, errOf, isPrimAt, isFullXformAt]
        · refine ⟨setNode g p (.xform M (some c)), ?_, ?_⟩
          · simp [addChild, hnd, hnc, hcy]
          · simp [childIdsAt, setNode, List.getElem?_set_eq_of_lt _ hplen, childIds]
  | group cs =>
    cases hcy : closesCycle g p c with
    | true =>
      simp [addChild, hnd, hnc, hcy, errOf, isPrimAt, isFullXformAt]
    | false =>
      refine ⟨?_, ?_, fun _ _ _ => ?_⟩
      · simp [addChild, hnd, hnc, hcy, errOf, isPrimAt, isFullXformAt]
      · simp [addChild, hnd, hnc, hcy, errOf, isPrimAt, isFullXformAt]
      · refine ⟨setNode g p (.group (cs ++ [c])), ?_, ?_⟩
        · simp [addChild, hnd, hnc, hcy]
        · simp [childIdsAt, setNode, List.getElem?_set_eq_of_lt _ hplen, childIds]
  | root cs =>
    cases hcy : closesCycle g p c with
    | true =>
      simp [addChild, hnd, hnc, hcy, errOf, isPrimAt, isFullXformAt]
    | false =>
      refine ⟨?_, ?_, fun _ _ _ => ?_⟩
      · simp [addChild, hnd, hnc, hcy, errOf, isPrimAt, isFullXformAt]
      · simp [addChild, hnd, hnc, hcy, errOf, isPrimAt, isFullXformAt]
      · refine ⟨setNode g p (.root (cs ++ [c])), ?_, ?_⟩
        · simp [addChild, hnd, hnc, hcy]
        · simp [childIdsAt, setNode, List.getElem?_set_eq_of_lt _ hplen, childIds]

/-- Witness for C6 (amended): attaching primitive 2 under group 1 of
gAttach succeeds, with all three failure conditions concretely false. -/
theorem c6_addChild_errors_witness :
    (gAttach.nodes[1]?).isSome = true ∧
    (∃ g2, addChild gAttach 1 2 = .ok g2 ∧ 2 ∈ childIdsAt g2 1) :=
  ⟨by decide,
    (c6_addChild_errors gAttach 1 2 (by decide) (by decide)).2.2
      (by decide) (by decide) (by decide)⟩

/-- Claim C7: every construction-time operation (asset create/lookup,
node creation, addChild) that reports an error leaves the asset table
and the graph exactly as they were before the call — no partial
mutation. -/
theorem c7_ops_atomic (schema : Nat → List Int → Bool) (s : SState) (op : Op)
    (h : (applyOp schema s op).1.isSome = true) : (applyOp schema s op).2 = s := by
  cases op with
  | createAsset name ty params =>
    by_cases h1 : hasName s.table name = true
    · simp [applyOp, h1]
    · by_cases h2 : schema ty params = true
      · simp [applyOp, h1, h2] at h
      · simp [applyOp, h1, h2]
  | lookupAsset name =>
    by_cases h1 : hasName s.table name = true <;> simp [applyOp, h1]
  | primitiveNode me ma => simp [applyOp] at h
  | transformNode M => simp [applyOp] at h
  | instanceGroupNode => simp [applyOp] at h
  | addChildOp p c =>
    cases hac : addChild s.graph p c with
    | ok g2 => simp [applyOp, hac] at h
    | error e => simp [applyOp, hac]

/-- Witness for C7: creating an asset with the already-present name 0
fails (with DuplicateNameError) and the state is unchanged. -/
theorem c7_ops_atomic_witness :
    (applyOp schemaAll sDup (.createAsset 0 0 [])).1.isSome = true ∧
    (applyOp schemaAll sDup (.createAsset 0 0 [])).2 = sDup :=
  ⟨by decide, c7_ops_atomic schemaAll sDup _ (by decide)⟩

/-- Claim C8: resetting the scene discards the whole asset table and
graph generation (only the root singleton remains), and any handle
obtained before the reset — its generation is at most the pre-reset
generation — fails with StaleHandleError on use. -/
theorem c8_reset_stale (s : SState) (h : AHandle) (hn : NHandle)
    (hh : h.gen ≤ s.gen) (hhn : hn.gen ≤ s.gen) :
    (resetScene s).table = [] ∧ (resetScene s).graph = freshGraph ∧
    useAsset (resetScene s) h = .error CErr.staleHandle ∧
    useNode (resetScene s) hn = .error CErr.staleHandle := by
  have ha : h.gen ≠ (resetScene s).gen := by simp only [resetScene]; omega
  have hb : hn.gen ≠ (resetScene s).gen := by simp only [resetScene]; omega
  exact ⟨rfl, rfl, by simp [useAsset, ha], by simp [useNode, hb]⟩

/-- Witness for C8: a handle of generation 2 against a state of
generation 3; after the reset its use reports StaleHandleError. -/
theorem c8_reset_stale_witness :
    (⟨2, 0⟩ : AHandle).gen ≤ sPre.gen ∧
    useAsset (resetScene sPre) ⟨2, 0⟩ = .error CErr.staleHandle :=
  ⟨by decide, (c8_reset_stale sPre ⟨2, 0⟩ ⟨2, 0⟩ (by decide) (by decide)).2.2.1⟩

/-- Any accumulated transform factors through: the inverse-transpose of
an invertible matrix applied to a nonzero vector is nonzero. -/
theorem normalMatrix_mulVec_ne_zero (M : Mat3) (n : V3) (hM : IsUnit M.det)
    (hn : dot3 n n = 1) : (normalMatrix M).mulVec n ≠ 0 := by
  intro h0
  have hrt : M.transpose.mulVec ((normalMatrix M).mulVec n) = n := by
    rw [normalMatrix, Matrix.mulVec_mulVec, ← Matrix.transpose_mul,
      Matrix.nonsing_inv_mul M hM, Matrix.transpose_one, Matrix.one_mulVec]
  have hn0 : n = 0 := by rw [← hrt, h0, Matrix.mulVec_zero]
  rw [hn0] at hn
  simp [dot3] at hn

/-- A nonzero vector has positive squared length. -/
theorem dot3_pos_of_ne_zero (w : V3) (hw : w ≠ 0) : 0 < dot3 w w := by
  have hex : ∃ i, w i ≠ 0 := by
    by_contra hall
    push_neg at hall
    exact hw (funext hall)
  obtain ⟨i, hi⟩ := hex
  exact Finset.sum_pos' (fun j _ => mul_self_nonneg (w j))
    ⟨i, Finset.mem_univ i, mul_self_pos.mpr hi⟩

/-- Squared length of a scaled vector. -/
theorem dot3_smul (c : ℝ) (w : V3) :
    dot3 (fun i => c * w i) (fun i => c * w i) = c ^ 2 * dot3 w w := by
  rw [dot3, dot3, Finset.mul_sum]
  exact Finset.sum_congr rfl (fun i _ => by ring)

/-- Claim C4: for every invertible accumulated transform (non-uniform
scale included) and every unit-length input normal, the normal is
transformed by the inverse-transpose of the 3x3 linear part (this is
the definition of transformedNormal) and the re-normalized result has
unit length. -/
theorem c4_normal_unit (M : Mat3) (n : V3) (hM : IsUnit M.det)
    (hn : dot3 n n = 1) :
    dot3 (transformedNormal M n) (transformedNormal M n) = 1 := by
  have hw : (normalMatrix M).mulVec n ≠ 0 := normalMatrix_mulVec_ne_zero M n hM hn
  have hpos : 0 < dot3 ((normalMatrix M).mulVec n) ((normalMatrix M).mulVec n) :=
    dot3_pos_of_ne_zero _ hw
  unfold transformedNormal normalize3
  rw [dot3_smul, inv_pow, Real.sq_sqrt hpos.le, inv_mul_cancel₀ (ne_of_gt hpos)]

/-- Witness for C4 at a non-uniform scale: the diagonal matrix (1,2,2)
is invertible and the x-axis normal has unit length. -/
theorem c4_normal_unit_witness :
    IsUnit (Matrix.det scaleM) ∧ dot3 unitX unitX = 1 ∧
    dot3 (transformedNormal scaleM unitX) (transformedNormal scaleM unitX) = 1 := by
  have hdet : IsUnit (Matrix.det scaleM) := by
    have h4 : Matrix.det scaleM = 4 := by
      rw [scaleM, Matrix.det_diagonal, Fin.prod_univ_three]
      norm_num [Fin.ext_iff]
    rw [h4]
    exact isUnit_iff_ne_zero.mpr (by norm_num)
  have hdot : dot3 unitX unitX = 1 := by
    simp [dot3, unitX, Fin.sum_univ_three]
  exact ⟨hdet, hdot, c4_normal_unit scaleM unitX hdet hdot⟩

/-- Mapping a pointwise image through kidsGo. -/
theorem kidsGo_map (f f2 : Nat → Nat → Except FErr (List Inst)) (h : Inst → Inst)
    (hf : ∀ c i, f2 c i = (f c i).map (List.map h)) :
    ∀ cs i, kidsGo f2 cs i = (kidsGo f cs i).map (List.map h) := by
  intro cs
  induction cs with
  | nil => intro i; simp [kidsGo, Except.map]
  | cons c rest ih =>
    intro i
    simp only [kidsGo, hf c i]
    cases f c i with
    | error e => simp [Except.map]
    | ok l =>
      simp only [Except.map]
      rw [ih (i + 1)]
      cases kidsGo f rest (i + 1) with
      | error e => simp [Except.map]
      | ok r => simp [Except.map]

/-- Transform factoring: flattening under an accumulated transform T * S
is flattening under S with T composed onto every emitted instance.  This
is the associativity argument behind true instancing. -/
theorem flattenAux_factor (g : Graph) :
    ∀ fuel n stack rpath T S,
      flattenAux g fuel n stack rpath (T * S) =
        (flattenAux g fuel n stack rpath S).map (List.map (instApply T)) := by
  intro fuel
  induction fuel with
  | zero => intro n stack rpath T S; rfl
  | succ fuel ih =>
    intro n stack rpath T S
    by_cases hmem : n ∈ stack
    · simp [flattenAux, hmem, Except.map]
    · cases hnode : g.nodes[n]? with
      | none => simp [flattenAux, hmem, hnode, Except.map]
      | some nd =>
        cases nd with
        | prim me ma =>
          simp [flattenAux, hmem, hnode, Except.map, instApply]
        | xform M c =>
          cases c with
          | none => simp [flattenAux, hmem, hnode, Except.map]
          | some ch =>
            simp only [flattenAux, if_neg hmem, hnode]
            rw [mul_assoc]
            exact ih ch (n :: stack) (0 :: rpath) T (S * M)
        | group cs =>
          simp only [flattenAux, if_neg hmem, hnode]
          exact kidsGo_map _ _ _ (fun c i => ih c (n :: stack) (i :: rpath) T S) cs 0
        | root cs =>
          simp only [flattenAux, if_neg hmem, hnode]
          exact kidsGo_map _ _ _ (fun c i => ih c (n :: stack) (i :: rpath) T S) cs 0

/-- kidsGo only depends on the pointwise behavior of its function. -/
theorem kidsGo_congr (f f2 : Nat → Nat → Except FErr (List Inst))
    (hf : ∀ c i, f c i = f2 c i) : ∀ cs i, kidsGo f cs i = kidsGo f2 cs i := by
  intro cs
  induction cs with
  | nil => intro i; rfl
  | cons c rest ih => intro i; simp only [kidsGo, hf c i, ih (i + 1)]

/-- True instancing agrees with naive expansion at every traversal state:
resetting to the identity at a group boundary and composing the
reference-site transform afterwards yields exactly the naive result,
including the error behavior. -/
theorem flattenIAux_eq_flattenAux (g : Graph) :
    ∀ fuel n stack rpath T,
      flattenIAux g fuel n stack rpath T = flattenAux g fuel n stack rpath T := by
  intro fuel
  induction fuel with
  | zero => intro n stack rpath T; rfl
  | succ fuel ih =>
    intro n stack rpath T
    by_cases hmem : n ∈ stack
    · simp [flattenIAux, flattenAux, hmem]
    · cases hnode : g.nodes[n]? with
      | none => simp [flattenIAux, flattenAux, hmem, hnode]
      | some nd =>
        cases nd with
        | prim me ma => simp [flattenIAux, flattenAux, hmem, hnode]
        | xform M c =>
          cases c with
          | none => simp [flattenIAux, flattenAux, hmem, hnode]
          | some ch =>
            simp only [flattenIAux, flattenAux, if_neg hmem, hnode]
            exact ih ch (n :: stack) (0 :: rpath) (T * M)
        | group cs =>
          simp only [flattenIAux, flattenAux, if_neg hmem, hnode]
          have hinner :
              kidsGo (fun c i => flattenIAux g fuel c (n :: stack) (i :: rpath) 1) cs 0 =
                kidsGo (fun c i => flattenAux g fuel c (n :: stack) (i :: rpath) 1) cs 0 :=
            kidsGo_congr _ _ (fun c i => ih c (n :: stack) (i :: rpath) 1) cs 0
          have houter :
              kidsGo (fun c i => flattenAux g fuel c (n :: stack) (i :: rpath) T) cs 0 =
                (kidsGo (fun c i => flattenAux g fuel c (n :: stack) (i :: rpath) 1) cs 0).map
                  (List.map (instApply T)) := by
            refine kidsGo_map _ _ _ (fun c i => ?_) cs 0
            have := flattenAux_factor g fuel c (n :: stack) (i :: rpath) T 1
            rwa [mul_one] at this
          rw [hinner, houter]
          cases kidsGo (fun c i => flattenAux g fuel c (n :: stack) (i :: rpath) 1) cs 0 with
          | error e => simp [Except.map]
          | ok content => simp [Except.map]
        | root cs =>
          simp only [flattenIAux, flattenAux, if_neg hmem, hnode]
          exact kidsGo_congr _ _ (fun c i => ih c (n :: stack) (i :: rpath) T) cs 0

/-- Claim C1: for every scene graph, flattening by naive expansion and
flattening by true instancing produce the same result — the same
FlattenedInstances (paths, handles and world transforms) on success and
the same error otherwise.  Hit distances and normals for any ray are a
function of the flattened instances, so the two strategies render
identical images. -/
theorem c1_instancing_equivalent (g : Graph) :
    flattenSceneInst g = flattenScene g :=
  flattenIAux_eq_flattenAux g (g.nodes.length + 1) g.rootId [] [] 1

/-- Each instance emitted by a successful kidsGo comes from some child at
its index. -/
theorem kidsGo_ok_mem (f : Nat → Nat → Except FErr (List Inst)) :
    ∀ cs i l, kidsGo f cs i = .ok l →
      ∀ e ∈ l, ∃ j c l2, cs[j]? = some c ∧ f c (i + j) = .ok l2 ∧ e ∈ l2 := by
  intro cs
  induction cs with
  | nil =>
    intro i l h e he
    cases h
    simp at he
  | cons c rest ih =>
    intro i l h e he
    cases hfc : f c i with
    | error e2 => simp [kidsGo, hfc] at h
    | ok l1 =>
      cases hrest : kidsGo f rest (i + 1) with
      | error e2 => simp [kidsGo, hfc, hrest] at h
      | ok r =>
        simp only [kidsGo, hfc, hrest] at h
        injection h with h
        subst h
        rcases List.mem_append.mp he with h1 | h2
        · exact ⟨0, c, l1, by simp, by simpa using hfc, h1⟩
        · obtain ⟨j, c2, l2, hj, hf2, hel⟩ := ih (i + 1) r hrest e h2
          refine ⟨j + 1, c2, l2, by simpa using hj, ?_, hel⟩
          rw [show i + (j + 1) = i + 1 + j by omega]
          exact hf2

/-- A successful kidsGo succeeds on each listed child, and the emitted
instances of that child are among the concatenated output. -/
theorem kidsGo_ok_at (f : Nat → Nat → Except FErr (List Inst)) :
    ∀ cs i l, kidsGo f cs i = .ok l →
      ∀ j c, cs[j]? = some c → ∃ l2, f c (i + j) = .ok l2 ∧ ∀ e ∈ l2, e ∈ l := by
  intro cs
  induction cs with
  | nil =>
    intro i l h j c hj
    simp at hj
  | cons c0 rest ih =>
    intro i l h j c hj
    cases hfc : f c0 i with
    | error e2 => simp [kidsGo, hfc] at h
    | ok l1 =>
      cases hrest : kidsGo f rest (i + 1) with
      | error e2 => simp [kidsGo, hfc, hrest] at h
      | ok r =>
        simp only [kidsGo, hfc, hrest] at h
        injection h with h
        subst h
        cases j with
        | zero =>
          rw [List.getElem?_cons_zero] at hj
          injection hj with hj
          subst hj
          exact ⟨l1, by simpa using hfc, fun e he => List.mem_append_left _ he⟩
        | succ j2 =>
          obtain ⟨l2, hf2, hsub⟩ := ih (i + 1) r hrest j2 c (by simpa using hj)
          refine ⟨l2, ?_, fun e he => List.mem_append_right _ (hsub e he)⟩
          rw [show i + (j2 + 1) = i + 1 + j2 by omega]
          exact hf2

/-- Soundness of flattening: every emitted instance corresponds to a
resolvable root-to-leaf path, its handles come from that leaf, and its
world transform is the accumulated transform times the top-down product
of the matrices on the remaining path. -/
theorem flattenAux_sound (g : Graph) :
    ∀ fuel n stack rpath T l,
      flattenAux g fuel n stack rpath T = .ok l →
      ∀ e ∈ l, ∃ p W, e.path = rpath.reverse ++ p ∧
        resolvePath g n p = some (e.mesh, e.material, W) ∧ e.world = T * W := by
  intro fuel
  induction fuel with
  | zero => intro n stack rpath T l h; simp [flattenAux] at h
  | succ fuel ih =>
    intro n stack rpath T l h
    by_cases hmem : n ∈ stack
    · simp [flattenAux, hmem] at h
    · cases hnode : g.nodes[n]? with
      | none => simp [flattenAux, hmem, hnode] at h
      | some nd =>
        cases nd with
        | prim me ma =>
          simp only [flattenAux, if_neg hmem, hnode] at h
          injection h with h
          subst h
          intro e he
          rw [List.mem_singleton] at he
          subst he
          exact ⟨[], 1, by simp, by simp [resolvePath, hnode], (mul_one T).symm⟩
        | xform M c =>
          cases c with
          | none =>
            simp only [flattenAux, if_neg hmem, hnode] at h
            injection h with h
            subst h
            intro e he
            simp at he
          | some ch =>
            simp only [flattenAux, if_neg hmem, hnode] at h
            intro e he
            obtain ⟨p, W, hpath, hres, hworld⟩ := ih ch (n :: stack) (0 :: rpath) (T * M) l h e he
            refine ⟨0 :: p, M * W, ?_, ?_, ?_⟩
            · rw [hpath]; simp
            · simp [resolvePath, hnode, hres]
            · rw [hworld, mul_assoc]
        | group cs =>
          simp only [flattenAux, if_neg hmem, hnode] at h
          intro e he
          obtain ⟨j, c, l2, hj, hf, hel⟩ := kidsGo_ok_mem _ cs 0 l h e he
          simp only [zero_add] at hf
          obtain ⟨p, W, hpath, hres, hworld⟩ := ih c (n :: stack) (j :: rpath) T l2 hf e hel
          refine ⟨j :: p, W, ?_, ?_, hworld⟩
          · rw [hpath]; simp
          · simp [resolvePath, hnode, hj, hres]
        | root cs =>
          simp only [flattenAux, if_neg hmem, hnode] at h
          intro e he
          obtain ⟨j, c, l2, hj, hf, hel⟩ := kidsGo_ok_mem _ cs 0 l h e he
          simp only [zero_add] at hf
          obtain ⟨p, W, hpath, hres, hworld⟩ := ih c (n :: stack) (j :: rpath) T l2 hf e hel
          refine ⟨j :: p, W, ?_, ?_, hworld⟩
          · rw [hpath]; simp
          · simp [resolvePath, hnode, hj, hres]

/-- Claim C3: the world transform of every FlattenedInstance emitted for
a leaf primitive equals the top-down, left-to-right product of every
transform matrix on its unique root-to-leaf path (resolvePath computes
exactly that product, under the column-vector convention
world_point = accumulated_transform * local_point used throughout). -/
theorem c3_world_transform (g : Graph) (l : List Inst)
    (h : flattenScene g = .ok l) :
    ∀ e ∈ l, resolvePath g g.rootId e.path = some (e.mesh, e.material, e.world) := by
  intro e he
  obtain ⟨p, W, hpath, hres, hworld⟩ := flattenAux_sound g _ _ _ _ _ l h e he
  simp only [List.reverse_nil, List.nil_append] at hpath
  rw [one_mul] at hworld
  rw [hpath, hres, hworld]

/-- Witness for C3 on the concrete scene gLeaf: the single emitted
instance has path [0] and its world transform is the (empty) product,
the identity. -/
theorem c3_world_transform_witness :
    flattenScene gLeaf = .ok [⟨[0], 0, 0, 1⟩] ∧
    resolvePath gLeaf gLeaf.rootId [0] = some (0, 0, (1 : Mat4)) :=
  ⟨rfl, c3_world_transform gLeaf [⟨[0], 0, 0, 1⟩] rfl ⟨[0], 0, 0, 1⟩
    (List.mem_singleton.mpr rfl)⟩

/-- Completeness of flattening: on success, every resolvable
root-to-leaf path is represented by an emitted instance with the
matching handles. -/
theorem flattenAux_complete (g : Graph) :
    ∀ fuel n stack rpath T l, flattenAux g fuel n stack rpath T = .ok l →
      ∀ p r, resolvePath g n p = some r →
        ∃ e, e ∈ l ∧ e.path = rpath.reverse ++ p ∧ e.mesh = r.1 ∧ e.material = r.2.1 := by
  intro fuel
  induction fuel with
  | zero => intro n stack rpath T l h; simp [flattenAux] at h
  | succ fuel ih =>
    intro n stack rpath T l h p r hres
    by_cases hmem : n ∈ stack
    · simp [flattenAux, hmem] at h
    · cases hnode : g.nodes[n]? with
      | none => simp [flattenAux, hmem, hnode] at h
      | some nd =>
        cases nd with
        | prim me ma =>
          simp only [flattenAux, if_neg hmem, hnode] at h
          injection h with h
          subst h
          cases p with
          | nil =>
            simp only [resolvePath, hnode] at hres
            injection hres with hres
            subst hres
            exact ⟨⟨rpath.reverse, me, ma, T⟩, List.mem_singleton.mpr rfl, by simp, rfl, rfl⟩
          | cons i p2 => simp [resolvePath, hnode] at hres
        | xform M c =>
          cases c with
          | none =>
            cases p with
            | nil => simp [resolvePath, hnode] at hres
            | cons i p2 => simp [resolvePath, hnode] at hres
          | some ch =>
            simp only [flattenAux, if_neg hmem, hnode] at h
            cases p with
            | nil => simp [resolvePath, hnode] at hres
            | cons i p2 =>
              simp only [resolvePath, hnode] at hres
              by_cases hi : i = 0
              · rw [if_pos hi] at hres
                obtain ⟨r2, hr2, hfr⟩ := Option.map_eq_some'.mp hres
                obtain ⟨e, he, hp, hme, hma⟩ :=
                  ih ch (n :: stack) (0 :: rpath) (T * M) l h p2 r2 hr2
                subst hi
                refine ⟨e, he, ?_, ?_, ?_⟩
                · rw [hp]; simp
                · rw [hme, ← hfr]
                · rw [hma, ← hfr]
              · rw [if_neg hi] at hres
                exact absurd hres (by simp)
        | group cs =>
          simp only [flattenAux, if_neg hmem, hnode] at h
          cases p with
          | nil => simp [resolvePath, hnode] at hres
          | cons j p2 =>
            simp only [resolvePath, hnode] at hres
            cases hj : cs[j]? with
            | none => rw [hj] at hres; exact absurd hres (by simp)
            | some c =>
              rw [hj] at hres
              obtain ⟨l2, hl2, hsub⟩ := kidsGo_ok_at _ cs 0 l h j c hj
              simp only [zero_add] at hl2
              obtain ⟨e, he, hp, hme, hma⟩ := ih c (n :: stack) (j :: rpath) T l2 hl2 p2 r hres
              refine ⟨e, hsub e he, ?_, hme, hma⟩
              rw [hp]; simp
        | root cs =>
          simp only [flattenAux, if_neg hmem, hnode] at h
          cases p with
          | nil => simp [resolvePath, hnode] at hres
          | cons j p2 =>
            simp only [resolvePath, hnode] at hres
            cases hj : cs[j]? with
            | none => rw [hj] at hres; exact absurd hres (by simp)
            | some c =>
              rw [hj] at hres
              obtain ⟨l2, hl2, hsub⟩ := kidsGo_ok_at _ cs 0 l h j c hj
              simp only [zero_add] at hl2
              obtain ⟨e, he, hp, hme, hma⟩ := ih c (n :: stack) (j :: rpath) T l2 hl2 p2 r hres
              refine ⟨e, hsub e he, ?_, hme, hma⟩
              rw [hp]; simp

/-- The paths of the instances of a kidsGo output are pairwise distinct
provided each child produces distinct paths behind a common fixed head
marked with the child index. -/
theorem kidsGo_paths_nodup (f : Nat → Nat → Except FErr (List Inst)) (pre : List Nat)
    (hnd : ∀ c i l2, f c i = .ok l2 → (l2.map Inst.path).Nodup)
    (hsh : ∀ c i l2, f c i = .ok l2 → ∀ e ∈ l2, ∃ p, e.path = pre ++ i :: p) :
    ∀ cs i l, kidsGo f cs i = .ok l → (l.map Inst.path).Nodup := by
  intro cs
  induction cs with
  | nil => intro i l h; cases h; simp
  | cons c rest ih =>
    intro i l h
    cases hfc : f c i with
    | error e2 => simp [kidsGo, hfc] at h
    | ok l1 =>
      cases hrest : kidsGo f rest (i + 1) with
      | error e2 => simp [kidsGo, hfc, hrest] at h
      | ok r =>
        simp only [kidsGo, hfc, hrest] at h
        injection h with h
        subst h
        rw [List.map_append, List.nodup_append]
        refine ⟨hnd c i l1 hfc, ih (i + 1) r hrest, ?_⟩
        intro x hx1 hx2
        obtain ⟨e1, he1, hxe1⟩ := List.mem_map.mp hx1
        obtain ⟨e2, he2, hxe2⟩ := List.mem_map.mp hx2
        obtain ⟨p1, hp1⟩ := hsh c i l1 hfc e1 he1
        obtain ⟨j, c2, l2, hj, hf2, hel2⟩ := kidsGo_ok_mem f rest (i + 1) r hrest e2 he2
        obtain ⟨p2, hp2⟩ := hsh c2 (i + 1 + j) l2 hf2 e2 hel2
        have heq : pre ++ i :: p1 = pre ++ (i + 1 + j) :: p2 := by
          rw [← hp1, ← hp2, hxe1, hxe2]
        have := List.append_cancel_left heq
        injection this with h1 _
        omega

/-- The paths recorded by a successful flattening are pairwise distinct:
each (primitive, root-to-leaf path) pair is emitted at most once. -/
theorem flattenAux_nodup (g : Graph) :
    ∀ fuel n stack rpath T l, flattenAux g fuel n stack rpath T = .ok l →
      (l.map Inst.path).Nodup := by
  intro fuel
  induction fuel with
  | zero => intro n stack rpath T l h; simp [flattenAux] at h
  | succ fuel ih =>
    intro n stack rpath T l h
    by_cases hmem : n ∈ stack
    · simp [flattenAux, hmem] at h
    · cases hnode : g.nodes[n]? with
      | none => simp [flattenAux, hmem, hnode] at h
      | some nd =>
        cases nd with
        | prim me ma =>
          simp only [flattenAux, if_neg hmem, hnode] at h
          injection h with h
          subst h
          simp
        | xform M c =>
          cases c with
          | none =>
            simp only [flattenAux, if_neg hmem, hnode] at h
            injection h with h
            subst h
            simp
          | some ch =>
            simp only [flattenAux, if_neg hmem, hnode] at h
            exact ih ch (n :: stack) (0 :: rpath) (T * M) l h
        | group cs =>
          simp only [flattenAux, if_neg hmem, hnode] at h
          refine kidsGo_paths_nodup _ rpath.reverse
            (fun c i l2 hf => ih c (n :: stack) (i :: rpath) T l2 hf)
            (fun c i l2 hf e he => ?_) cs 0 l h
          obtain ⟨p, W, hpath, _, _⟩ := flattenAux_sound g fuel c (n :: stack) (i :: rpath) T l2 hf e he
          exact ⟨p, by rw [hpath]; simp⟩
        | root cs =>
          simp only [flattenAux, if_neg hmem, hnode] at h
          refine kidsGo_paths_nodup _ rpath.reverse
            (fun c i l2 hf => ih c (n :: stack) (i :: rpath) T l2 hf)
            (fun c i l2 hf e he => ?_) cs 0 l h
          obtain ⟨p, W, hpath, _, _⟩ := flattenAux_sound g fuel c (n :: stack) (i :: rpath) T l2 hf e he
          exact ⟨p, by rw [hpath]; simp⟩

/-- A duplicate-free list of indices below len has at most len entries. -/
theorem stack_length_le (stack : List Nat) (len : Nat) (hnd : stack.Nodup)
    (hb : ∀ m ∈ stack, m < len) : stack.length ≤ len := by
  have hsub : stack.toFinset ⊆ Finset.range len := by
    intro x hx
    rw [List.mem_toFinset] at hx
    exact Finset.mem_range.mpr (hb x hx)
  calc stack.length = stack.toFinset.card := (List.toFinset_card_of_nodup hnd).symm
    _ ≤ (Finset.range len).card := Finset.card_le_card hsub
    _ = len := Finset.card_range len

/-- In a well-formed graph the root id is a valid index. -/
theorem wellFormed_root (g : Graph) (hwf : wellFormed g = true) :
    g.rootId < g.nodes.length := by
  rw [wellFormed, Bool.and_eq_true] at hwf
  simpa using hwf.1

/-- In a well-formed graph every child reference of a stored node is a
valid index. -/
theorem wellFormed_child (g : Graph) (hwf : wellFormed g = true) {n : Nat} {nd : Node}
    (hnd : g.nodes[n]? = some nd) : ∀ c ∈ childIds nd, c < g.nodes.length := by
  intro c hc
  have hmem : nd ∈ g.nodes := List.getElem?_mem hnd
  rw [wellFormed, Bool.and_eq_true] at hwf
  have h2 := List.all_eq_true.mp hwf.2 nd hmem
  simpa using List.all_eq_true.mp h2 c hc

/-- kidsGo succeeds when every listed child succeeds at every index. -/
theorem kidsGo_ok (f : Nat → Nat → Except FErr (List Inst)) :
    ∀ cs, (∀ c ∈ cs, ∀ i, ∃ l, f c i = .ok l) → ∀ i, ∃ l, kidsGo f cs i = .ok l := by
  intro cs
  induction cs with
  | nil => intro _ i; exact ⟨[], rfl⟩
  | cons c rest ih =>
    intro h i
    obtain ⟨l1, h1⟩ := h c (List.mem_cons_self c rest) i
    obtain ⟨r, h2⟩ := ih (fun c2 hc2 i2 => h c2 (List.mem_cons_of_mem c hc2) i2) (i + 1)
    exact ⟨l1 ++ r, by simp [kidsGo, h1, h2]⟩

/-- Termination and success: on a well-formed acyclic graph the
traversal never trips the ancestor-stack check nor the depth guard, so
flattening returns a result.  The stack is a chain of strict ancestors
of the visited node, hence duplicate-free, hence shorter than the node
count. -/
theorem flattenAux_ok_of_acyclic (g : Graph) (hwf : wellFormed g = true)
    (ha : Acyclic g) :
    ∀ fuel n stack rpath T,
      n < g.nodes.length → stack.Nodup → (∀ m ∈ stack, m < g.nodes.length) →
      (∀ m ∈ stack, Reaches g m n) → g.nodes.length + 1 ≤ fuel + stack.length →
      ∃ l, flattenAux g fuel n stack rpath T = .ok l := by
  intro fuel
  induction fuel with
  | zero =>
    intro n stack rpath T hn hnd hb hr hfuel
    exact absurd (stack_length_le stack g.nodes.length hnd hb) (by omega)
  | succ fuel ih =>
    intro n stack rpath T hn hnd hb hr hfuel
    have hmem : n ∉ stack := fun hmem => ha n (hr n hmem)
    obtain ⟨nd, hnd2⟩ : ∃ nd, g.nodes[n]? = some nd :=
      ⟨g.nodes[n], List.getElem?_eq_getElem hn⟩
    have hstep : ∀ c ∈ childIds nd, stepRel g n c := fun c hc => by
      rw [stepRel, childIdsAt, hnd2]; exact hc
    have hchild := wellFormed_child g hwf hnd2
    have hrec : ∀ c ∈ childIds nd, ∀ (T2 : Mat4) (rp : List Nat),
        ∃ l, flattenAux g fuel c (n :: stack) rp T2 = .ok l := by
      intro c hc T2 rp
      refine ih c (n :: stack) rp T2 (hchild c hc)
        (List.nodup_cons.mpr ⟨hmem, hnd⟩) ?_ ?_ (by simp; omega)
      · intro m hm
        rcases List.mem_cons.mp hm with rfl | hm2
        · exact hn
        · exact hb m hm2
      · intro m hm
        rcases List.mem_cons.mp hm with rfl | hm2
        · exact Relation.TransGen.single (hstep c hc)
        · exact (hr m hm2).tail (hstep c hc)
    cases nd with
    | prim me ma =>
      exact ⟨[⟨rpath.reverse, me, ma, T⟩], by simp [flattenAux, hmem, hnd2]⟩
    | xform M c =>
      cases c with
      | none => exact ⟨[], by simp [flattenAux, hmem, hnd2]⟩
      | some ch =>
        obtain ⟨l, hl⟩ := hrec ch (by simp [childIds]) (T * M) (0 :: rpath)
        exact ⟨l, by simp only [flattenAux, if_neg hmem, hnd2]; exact hl⟩
    | group cs =>
      obtain ⟨l, hl⟩ := kidsGo_ok _ cs
        (fun c hc i => hrec c (by simpa [childIds] using hc) T (i :: rpath)) 0
      exact ⟨l, by simp only [flattenAux, if_neg hmem, hnd2]; exact hl⟩
    | root cs =>
      obtain ⟨l, hl⟩ := kidsGo_ok _ cs
        (fun c hc i => hrec c (by simpa [childIds] using hc) T (i :: rpath)) 0
      exact ⟨l, by simp only [flattenAux, if_neg hmem, hnd2]; exact hl⟩

/-- Success transports across one edge: if flattening succeeds at a node,
it succeeded at each child with the node pushed on the ancestor stack. -/
theorem flattenAux_ok_step (g : Graph) :
    ∀ fuel n stack rpath T l, flattenAux g fuel n stack rpath T = .ok l →
      ∀ b, stepRel g n b →
        ∃ fuel2 stack2 rpath2 T2 l2,
          flattenAux g fuel2 b stack2 rpath2 T2 = .ok l2 ∧ n ∈ stack2 ∧ stack ⊆ stack2 := by
  intro fuel
  cases fuel with
  | zero => intro n stack rpath T l h; simp [flattenAux] at h
  | succ fuel =>
    intro n stack rpath T l h b hstep
    by_cases hmem : n ∈ stack
    · simp [flattenAux, hmem] at h
    · cases hnode : g.nodes[n]? with
      | none => simp [flattenAux, hmem, hnode] at h
      | some nd =>
        rw [stepRel, childIdsAt, hnode] at hstep
        cases nd with
        | prim me ma => simp [childIds] at hstep
        | xform M c =>
          cases c with
          | none => simp [childIds] at hstep
          | some ch =>
            have hb : b = ch := by simpa [childIds] using hstep
            simp only [flattenAux, if_neg hmem, hnode] at h
            subst hb
            exact ⟨fuel, n :: stack, 0 :: rpath, T * M, l, h,
              List.mem_cons_self _ _, List.subset_cons_of_subset _ (List.Subset.refl _)⟩
        | group cs =>
          simp only [flattenAux, if_neg hmem, hnode] at h
          obtain ⟨j, hj⟩ := List.mem_iff_getElem?.mp (by simpa [childIds] using hstep)
          obtain ⟨l2, hl2, _⟩ := kidsGo_ok_at _ cs 0 l h j b hj
          exact ⟨fuel, n :: stack, (0 + j) :: rpath, T, l2, hl2,
            List.mem_cons_self _ _, List.subset_cons_of_subset _ (List.Subset.refl _)⟩
        | root cs =>
          simp only [flattenAux, if_neg hmem, hnode] at h
          obtain ⟨j, hj⟩ := List.mem_iff_getElem?.mp (by simpa [childIds] using hstep)
          obtain ⟨l2, hl2, _⟩ := kidsGo_ok_at _ cs 0 l h j b hj
          exact ⟨fuel, n :: stack, (0 + j) :: rpath, T, l2, hl2,
            List.mem_cons_self _ _, List.subset_cons_of_subset _ (List.Subset.refl _)⟩

/-- Success transports along any reachability path, with the start node
kept on the ancestor stack. -/
theorem flattenAux_ok_reach (g : Graph) (a b : Nat) (hr : Reaches g a b) :
    ∀ fuel stack rpath T l, flattenAux g fuel a stack rpath T = .ok l →
      ∃ fuel2 stack2 rpath2 T2 l2,
        flattenAux g fuel2 b stack2 rpath2 T2 = .ok l2 ∧ a ∈ stack2 := by
  induction hr with
  | single hstep =>
    intro fuel stack rpath T l h
    obtain ⟨f2, s2, r2, T2, l2, h2, hmem, _⟩ :=
      flattenAux_ok_step g fuel a stack rpath T l h _ hstep
    exact ⟨f2, s2, r2, T2, l2, h2, hmem⟩
  | tail hr2 hstep ih =>
    intro fuel stack rpath T l h
    obtain ⟨f2, s2, r2, T2, l2, h2, hmema⟩ := ih fuel stack rpath T l h
    obtain ⟨f3, s3, r3, T3, l3, h3, _, hsub⟩ :=
      flattenAux_ok_step g f2 _ s2 r2 T2 l2 h2 _ hstep
    exact ⟨f3, s3, r3, T3, l3, h3, hsub hmema⟩

/-- Flattening can never succeed at a node that lies on a cycle: walking
the cycle returns to the node while it is still on the ancestor stack. -/
theorem flattenAux_no_ok_on_cycle (g : Graph) (c : Nat) (hc : Reaches g c c) :
    ∀ fuel stack rpath T l, flattenAux g fuel c stack rpath T ≠ .ok l := by
  intro fuel stack rpath T l h
  obtain ⟨f2, s2, r2, T2, l2, h2, hmem⟩ :=
    flattenAux_ok_reach g c c hc fuel stack rpath T l h
  cases f2 with
  | zero => simp [flattenAux] at h2
  | succ f3 => simp [flattenAux, hmem] at h2

/-- kidsGo never reports NotFoundError when no child does. -/
theorem kidsGo_no_notFound (f : Nat → Nat → Except FErr (List Inst)) :
    ∀ cs, (∀ c ∈ cs, ∀ i, f c i ≠ .error .notFoundError) →
      ∀ i, kidsGo f cs i ≠ .error .notFoundError := by
  intro cs
  induction cs with
  | nil => intro _ i h; simp [kidsGo] at h
  | cons c rest ih =>
    intro hf i h
    cases hfc : f c i with
    | error e2 =>
      simp only [kidsGo, hfc] at h
      injection h with h
      subst h
      exact hf c (List.mem_cons_self c rest) i hfc
    | ok l1 =>
      cases hrest : kidsGo f rest (i + 1) with
      | error e2 =>
        simp only [kidsGo, hfc, hrest] at h
        injection h with h
        subst h
        exact ih (fun c2 hc2 i2 => hf c2 (List.mem_cons_of_mem c hc2) i2) (i + 1) hrest
      | ok r => simp [kidsGo, hfc, hrest] at h

/-- On a well-formed graph the traversal never reports NotFoundError
when started at a valid node. -/
theorem flattenAux_no_notFound (g : Graph) (hwf : wellFormed g = true) :
    ∀ fuel n stack rpath T, n < g.nodes.length →
      flattenAux g fuel n stack rpath T ≠ .error .notFoundError := by
  intro fuel
  induction fuel with
  | zero =>
    intro n stack rpath T hn h
    simp only [flattenAux] at h
    injection h with h
    exact FErr.noConfusion h
  | succ fuel ih =>
    intro n stack rpath T hn h
    by_cases hmem : n ∈ stack
    · simp only [flattenAux, if_pos hmem] at h
      injection h with h
      exact FErr.noConfusion h
    · obtain ⟨nd, hnd2⟩ : ∃ nd, g.nodes[n]? = some nd :=
        ⟨g.nodes[n], List.getElem?_eq_getElem hn⟩
      have hchild := wellFormed_child g hwf hnd2
      cases nd with
      | prim me ma => simp [flattenAux, hmem, hnd2] at h
      | xform M c =>
        cases c with
        | none => simp [flattenAux, hmem, hnd2] at h
        | some ch =>
          simp only [flattenAux, if_neg hmem, hnd2] at h
          exact ih ch (n :: stack) (0 :: rpath) (T * M)
            (hchild ch (by simp [childIds])) h
      | group cs =>
        simp only [flattenAux, if_neg hmem, hnd2] at h
        exact kidsGo_no_notFound _ cs
          (fun c hc i => ih c (n :: stack) (i :: rpath) T
            (hchild c (by simpa [childIds] using hc))) 0 h
      | root cs =>
        simp only [flattenAux, if_neg hmem, hnd2] at h
        exact kidsGo_no_notFound _ cs
          (fun c hc i => ih c (n :: stack) (i :: rpath) T
            (hchild c (by simpa [childIds] using hc))) 0 h

/-- Claim C2: on a well-formed graph, flattening of an acyclic scene
terminates with a result that has exactly one FlattenedInstance per
(primitive, unique root-to-leaf path) pair — the recorded paths are
pairwise distinct, every instance resolves along its path to its
primitive, and every resolvable path is represented; on a graph with a
cycle reachable from the root, flattening fails fast with CycleError
instead of hanging. -/
theorem c2_flatten_terminates (g : Graph) (hwf : wellFormed g = true) :
    (Acyclic g →
      ∃ l, flattenScene g = .ok l ∧ (l.map Inst.path).Nodup ∧
        (∀ e ∈ l, ∃ W, resolvePath g g.rootId e.path = some (e.mesh, e.material, W)) ∧
        (∀ p r, resolvePath g g.rootId p = some r →
          ∃ e, e ∈ l ∧ e.path = p ∧ e.mesh = r.1 ∧ e.material = r.2.1)) ∧
    (CyclicFromRoot g → flattenScene g = .error .cycleError) := by
  have hroot : g.rootId < g.nodes.length := wellFormed_root g hwf
  constructor
  · intro ha
    obtain ⟨l, hl⟩ := flattenAux_ok_of_acyclic g hwf ha (g.nodes.length + 1)
      g.rootId [] [] 1 hroot (by simp) (by simp) (by simp) (by simp)
    refine ⟨l, hl, flattenAux_nodup g _ _ _ _ _ l hl, ?_, ?_⟩
    · intro e he
      obtain ⟨p, W, hpath, hres, _⟩ := flattenAux_sound g _ _ _ _ _ l hl e he
      simp only [List.reverse_nil, List.nil_append] at hpath
      exact ⟨W, by rw [hpath]; exact hres⟩
    · intro p r hres
      obtain ⟨e, he, hpath, hme, hma⟩ := flattenAux_complete g _ _ _ _ _ l hl p r hres
      exact ⟨e, he, by simpa using hpath, hme, hma⟩
  · rintro ⟨n, hreach, hcyc⟩
    have hnotok : ∀ l, flattenScene g ≠ .ok l := by
      intro l h
      rcases hreach with rfl | hreach
      · exact flattenAux_no_ok_on_cycle g _ hcyc _ _ _ _ l h
      · obtain ⟨f2, s2, r2, T2, l2, h2, _⟩ :=
          flattenAux_ok_reach g g.rootId n hreach _ _ _ _ l h
        exact flattenAux_no_ok_on_cycle g n hcyc f2 s2 r2 T2 l2 h2
    have hnf : flattenScene g ≠ .error .notFoundError :=
      flattenAux_no_notFound g hwf _ g.rootId [] [] 1 hroot
    cases hval : flattenScene g with
    | ok l => exact absurd hval (hnotok l)
    | error e =>
      cases e with
      | cycleError => rfl
      | notFoundError => exact absurd hval hnf

/-- A rank strictly decreasing along every edge bounds reachability. -/
theorem reaches_rank (g : Graph) (rank : Nat → Nat)
    (h : ∀ a b, stepRel g a b → rank b < rank a) :
    ∀ a b, Reaches g a b → rank b < rank a := by
  intro a b hr
  induction hr with
  | single hs => exact h _ _ hs
  | tail hr2 hs ih => exact lt_trans (h _ _ hs) ih

/-- A graph admitting a rank strictly decreasing along every edge is
acyclic. -/
theorem acyclic_of_rank (g : Graph) (rank : Nat → Nat)
    (h : ∀ a b, stepRel g a b → rank b < rank a) : Acyclic g :=
  fun n hr => lt_irrefl _ (reaches_rank g rank h n n hr)

/-- The rank function of gChain decreases along each of its edges. -/
theorem gChain_rank_ok : ∀ a b, stepRel gChain a b → gChainRank b < gChainRank a := by
  intro a b hab
  rw [stepRel] at hab
  rcases a with _ | _ | _ | _ | m
  · have hb : b = 1 := by simpa [childIdsAt, gChain, childIds] using hab
    subst hb; decide
  · have hb : b = 2 := by simpa [childIdsAt, gChain, childIds] using hab
    subst hb; decide
  · have hb : b = 3 := by simpa [childIdsAt, gChain, childIds] using hab
    subst hb; decide
  · simp [childIdsAt, gChain, childIds] at hab
  · simp [childIdsAt, gChain] at hab

/-- Witness for C2: the concrete acyclic scene gChain flattens
successfully, and the concrete cyclic scene gCycle (whose transform 1
and group 2 reference each other) fails with CycleError. -/
theorem c2_flatten_terminates_witness :
    wellFormed gChain = true ∧ (∃ l, flattenScene gChain = .ok l) ∧
    flattenScene gCycle = .error .cycleError := by
  obtain ⟨l, hl, _, _, _⟩ := (c2_flatten_terminates gChain (by decide)).1
    (acyclic_of_rank gChain gChainRank gChain_rank_ok)
  have s01 : stepRel gCycle 0 1 := by decide
  have s12 : stepRel gCycle 1 2 := by decide
  have s21 : stepRel gCycle 2 1 := by decide
  have r11 : Reaches gCycle 1 1 :=
    Relation.TransGen.head s12 (Relation.TransGen.single s21)
  have h2 := (c2_flatten_terminates gCycle (by decide)).2
    ⟨1, Or.inr (Relation.TransGen.single s01), r11⟩
  exact ⟨by decide, ⟨l, hl⟩, h2⟩

end Lm
